import Mathlib

/-!
Verification of the Tactical Planning System task engine.

This file gives a shallow embedding of the task-planning core of the
repository (the `PlanningContext` store mutators and the pure calculation
modules `realismPoint.js`, `rtCalculations.js`, `taskSorting.js`) and proves
properties about it.

Modelling conventions for the dynamically-typed source:
* JS numbers used for hours / ratios are modelled as `ℚ`; a value that the
  source coerces with `parseFloat`/`parseInt` and that may be `NaN` is
  modelled as an `Option` (`none` = `NaN`, i.e. not coercible).
* Date objects are modelled by their timestamp as `Int`; an absent or
  unparseable date is `none`.
* Task ids are `Nat`.  JS truthiness tests on an id (`if (task.parentTaskId)`)
  are modelled by `idTruthy`, which is false for `none` and for id `0`.
* The store (the `tasks` array held by the provider) is a `List Task`;
  every mutator is a function from the store to the new store.
* The source functions contain no `throw`; functions whose claims speak about
  raising are wrapped in `Except` with every path returning `Except.ok`.
-/

namespace Planning

/-- A task, mirroring the object built by `addTask` in `PlanningContext.jsx`. -/
structure Task where
  id : Nat
  title : String
  /-- `rt: parseFloat(task.rt)`; `none` models `NaN`. -/
  rt : Option ℚ
  /-- `idl: new Date(task.idl)` as a timestamp; `none` models an invalid date or an absent field. -/
  idl : Option Int
  /-- `il: parseInt(task.il)`; `none` models `NaN`. -/
  il : Option Int
  createdAt : Int
  parentTaskId : Option Nat
  subtasks : List Nat
  linksTo : List Nat
  linkedFrom : List Nat
  completed : Bool
  completedAt : Option Int
deriving DecidableEq

/-- Input to `addTask`, with the ad-hoc coercions of the source already
applied (`parseFloat`, `new Date`, `parseInt`); `none` marks a value the
coercion could not make sense of. -/
structure TaskInput where
  title : String
  rt : Option ℚ
  idl : Option Int
  il : Option Int
  parentTaskId : Option Nat
deriving DecidableEq

/-- A patch for `updateTask`; the outer `Option` is field presence in the
`updates` object, the inner `Option` on `rt`/`idl`/`il` is the coercion
result as in `TaskInput`. -/
structure Patch where
  title : Option String := none
  rt : Option (Option ℚ) := none
  idl : Option (Option Int) := none
  il : Option (Option Int) := none
deriving DecidableEq

/-- JS truthiness of an optional task id: `null`/`undefined` and `0` are falsy. -/
def idTruthy : Option Nat → Bool
  | none => false
  | some n => n != 0

/-- `IMPORTANCE.MUST` from `config/functions/index.js`. -/
def IMPORTANCE_MUST : Int := 1

/-- `RP_LIMITS.SAFE` from `config/functions/index.js`. -/
def RP_LIMITS_SAFE : ℚ := 0.8

/-- `RP_LIMITS.RISKY` from `config/functions/index.js`. -/
def RP_LIMITS_RISKY : ℚ := 1.0

/-- `calculateTotalRT` from `rtCalculations.js`: returns 0 on an empty array,
otherwise reduces `sum + (task.rt || 0)` from 0.  A missing/`NaN` `rt`
(`none`) contributes 0, exactly as `task.rt || 0` does. -/
def calculateTotalRT (tasks : List Task) : ℚ :=
  if tasks.isEmpty then 0
  else tasks.foldl (fun sum task => sum + task.rt.getD 0) 0

/-- `calculateRealismPoint` from `realismPoint.js`:
`if (!availableTime || availableTime <= 0) return 0; return totalRT / availableTime`. -/
def calculateRealismPoint (tasks : List Task) (availableTime : ℚ) : ℚ :=
  if availableTime = 0 ∨ availableTime ≤ 0 then 0
  else calculateTotalRT tasks / availableTime

/-- The three RP zones; this is the `status` field of the object returned by
`getRPStatus` (the remaining fields are presentation styling determined by
the same three-way branch). -/
inductive Zone
  | Safe
  | Risky
  | Overload
deriving DecidableEq

/-- `getRPStatus` from `realismPoint.js`, reduced to the zone it selects:
`rp < RP_LIMITS.SAFE` → Safe, `else if rp < RP_LIMITS.RISKY` → Risky,
`else` → Overload. -/
def getRPStatus (rp : ℚ) : Zone :=
  if rp < RP_LIMITS_SAFE then Zone.Safe
  else if rp < RP_LIMITS_RISKY then Zone.Risky
  else Zone.Overload

/-- Numeric value of `a.il || 0` used by the comparator in `taskSorting.js`. -/
def ilNum (t : Task) : Int := t.il.getD 0

/-- Timestamp of `new Date(a.idl || 0)`: a missing deadline is the epoch. -/
def idlNum (t : Task) : Int := t.idl.getD 0

/-- The comparator of `sortTasksByPriority`: importance level difference when
the levels differ, otherwise deadline difference. -/
def comparePriority (a b : Task) : Int :=
  if a.il ≠ b.il then ilNum a - ilNum b
  else idlNum a - idlNum b

/-- The `≤` relation induced by the comparator, as consumed by a stable sort. -/
def priorityLE (a b : Task) : Prop := comparePriority a b ≤ 0

instance : DecidableRel priorityLE := fun a b => Int.decLe (comparePriority a b) 0

/-- `sortTasksByPriority` from `taskSorting.js`: `[...tasks].sort(comparator)`.
Since ES2019 `Array.prototype.sort` is a stable sort, and a stable sort's
output is uniquely determined by the comparator, it is modelled by the
stable `List.insertionSort`. -/
def sortTasksByPriority (tasks : List Task) : List Task :=
  List.insertionSort priorityLE tasks

/-- The `newTask` object literal built by `addTask`: `now` is `new Date()` /
`Date.now()`, `newId` the generated id; a falsy `parentTaskId` is stored as
`null`. -/
def newTaskOf (now : Int) (newId : Nat) (inp : TaskInput) : Task :=
  { id := newId
    title := inp.title
    rt := inp.rt
    idl := inp.idl
    il := inp.il
    createdAt := now
    parentTaskId := if idTruthy inp.parentTaskId then inp.parentTaskId else none
    subtasks := []
    linksTo := []
    linkedFrom := []
    completed := false
    completedAt := none }

/-- `addTask` from `PlanningContext.jsx`.  Returns the new task and the new
store, exactly as the source returns `newTask` and installs the updated
array: the store gains the new task at the end, and when the input's
`parentTaskId` is truthy, every task whose id equals it gains the new id at
the end of its `subtasks`. -/
def addTask (now : Int) (newId : Nat) (inp : TaskInput) (s : List Task) :
    Task × List Task :=
  let newTask := newTaskOf now newId inp
  let updated := s ++ [newTask]
  if idTruthy inp.parentTaskId then
    (newTask, updated.map fun t =>
      if some t.id = inp.parentTaskId then { t with subtasks := t.subtasks ++ [newId] } else t)
  else
    (newTask, updated)

/-- The merge `{...task, ...updates}` with the re-coercions of
`updateTask`: a field present in the patch replaces the old one (as the
coerced value, possibly `none` = `NaN`/invalid), an absent field is kept. -/
def applyPatch (p : Patch) (task : Task) : Task :=
  { task with
    title := p.title.getD task.title
    rt := match p.rt with | some v => v | none => task.rt
    idl := match p.idl with | some v => v | none => task.idl
    il := match p.il with | some v => v | none => task.il }

/-- `updateTask` from `PlanningContext.jsx`: maps over the store patching
every task whose id matches (a missing id is silently a no-op). -/
def updateTask (taskId : Nat) (p : Patch) (s : List Task) : List Task :=
  s.map fun task => if task.id = taskId then applyPatch p task else task

/-- Fuelled version of the inner helper `getDescendantIds` of
`toggleTaskCompletion`: collect `child.id` followed by the recursion on the
child, over the direct children (`t.parentTaskId === parentId`).  The source
recursion terminates because the hierarchy is a forest; the fuel (one per
recursion level) is sufficient for any forest store, which is proved below. -/
def getDescIdsGo (fuel : Nat) (parentId : Nat) (allTasks : List Task) : List Nat :=
  match fuel with
  | 0 => []
  | f + 1 =>
    (allTasks.filter fun t => t.parentTaskId == some parentId).flatMap
      fun child => child.id :: getDescIdsGo f child.id allTasks

/-- `getDescendantIds(parentId, allTasks)` with fuel `allTasks.length`. -/
def getDescendantIds (parentId : Nat) (allTasks : List Task) : List Nat :=
  getDescIdsGo allTasks.length parentId allTasks

/-- `toggleTaskCompletion` from `PlanningContext.jsx`.  `now` models the
`new Date()` taken for `completionDate`. -/
def toggleTaskCompletion (now : Int) (taskId : Nat) (s : List Task) : List Task :=
  match s.find? (fun t => t.id == taskId) with
  | none => s
  | some task =>
    let newCompleted := !task.completed
    let completionDate : Option Int := if newCompleted then some now else none
    s.map fun t =>
      if t.id = taskId then
        { t with completed := newCompleted, completedAt := completionDate }
      else if newCompleted ∧ t.id ∈ getDescendantIds taskId s then
        { t with completed := true, completedAt := completionDate }
      else t

/-- The per-task pass of `deleteTask`: the parent of the deleted task has it
removed from `subtasks` (and, note, keeps its links untouched — that branch
returns early); every other task has the deleted id filtered out of
`linksTo` and `linkedFrom` (and, note, keeps its `subtasks` untouched). -/
def deleteStrip (taskId : Nat) (parentOfDeleted : Option Nat) (task : Task) : Task :=
  if some task.id = parentOfDeleted then
    { task with subtasks := task.subtasks.filter fun i => i ≠ taskId }
  else
    { task with
      linksTo := task.linksTo.filter fun i => i ≠ taskId
      linkedFrom := task.linkedFrom.filter fun i => i ≠ taskId }

/-- Fuelled version of the inner helper `deleteSubtasks` of `deleteTask`:
take the direct children of `parentId` in the current array, and for each,
first remove it from the array, then recurse on its id over the shrunken
array (the source mutates the captured `updated` in exactly this order). -/
def deleteSubtasksGo (fuel : Nat) (parentId : Nat) (acc : List Task) : List Task :=
  match fuel with
  | 0 => acc
  | f + 1 =>
    (acc.filter fun t => t.parentTaskId == some parentId).foldl
      (fun cur sub => deleteSubtasksGo f sub.id (cur.filter fun t => t.id ≠ sub.id))
      acc

/-- `deleteTask` from `PlanningContext.jsx`: no-op when the id is absent;
otherwise strip references with `deleteStrip`, recursively delete the
subtasks, and finally remove the task itself. -/
def deleteTask (taskId : Nat) (s : List Task) : List Task :=
  match s.find? (fun t => t.id == taskId) with
  | none => s
  | some taskToDelete =>
    let updated := s.map (deleteStrip taskId taskToDelete.parentTaskId)
    let afterSubtasks := deleteSubtasksGo updated.length taskId updated
    afterSubtasks.filter fun task => task.id ≠ taskId

/-- `catastrophicWipeOut` from `PlanningContext.jsx`:
`setTasks(prev => prev.filter(task => task.il === IMPORTANCE.MUST))`.
The source callback returns `undefined`, so there is no removed count to
model. -/
def catastrophicWipeOut (s : List Task) : List Task :=
  s.filter fun task => task.il == some IMPORTANCE_MUST

/-- The per-task pass of `linkTask` (reached only when `fromId ≠ toId`):
add `toId` to the `linksTo` of the source task if not already present, and
`fromId` to the `linkedFrom` of the target task if not already present. -/
def linkStep (fromTaskId toTaskId : Nat) (task : Task) : Task :=
  if task.id = fromTaskId ∧ toTaskId ∉ task.linksTo then
    { task with linksTo := task.linksTo ++ [toTaskId] }
  else if task.id = toTaskId ∧ fromTaskId ∉ task.linkedFrom then
    { task with linkedFrom := task.linkedFrom ++ [fromTaskId] }
  else task

/-- The store transformation of `linkTask`: the self-link guard
`if (fromTaskId === toTaskId) return;` leaves the store untouched. -/
def linkTaskList (fromTaskId toTaskId : Nat) (s : List Task) : List Task :=
  if fromTaskId = toTaskId then s
  else s.map (linkStep fromTaskId toTaskId)

/-- Error taxonomy of the specification (§7). -/
inductive PlanError
  | validationError
  | notFound
  | invalidOperation
deriving DecidableEq

/-- `linkTask` from `PlanningContext.jsx`, in `Except` form so that
"raises" is expressible.  The source function contains no `throw`: every
path — including the self-link guard, which is a bare `return` — completes
normally, hence every path here is `Except.ok`. -/
def linkTask (fromTaskId toTaskId : Nat) (s : List Task) :
    Except PlanError (List Task) :=
  Except.ok (linkTaskList fromTaskId toTaskId s)

/-- `unlinkTask` from `PlanningContext.jsx`. -/
def unlinkTask (fromTaskId toTaskId : Nat) (s : List Task) : List Task :=
  s.map fun task =>
    if task.id = fromTaskId then
      { task with linksTo := task.linksTo.filter fun i => i ≠ toTaskId }
    else if task.id = toTaskId then
      { task with linkedFrom := task.linkedFrom.filter fun i => i ≠ fromTaskId }
    else task

/-- The claim-level descendant relation: `DescId s root i` holds when some
task in `s` with id `i` is reachable from the id `root` by following
`parentTaskId` pointers upward through tasks of `s`. -/
inductive DescId (s : List Task) (root : Nat) : Nat → Prop
  | base (c : Task) : c ∈ s → c.parentTaskId = some root → DescId s root c.id
  | step (p : Nat) (c : Task) :
      DescId s root p → c ∈ s → c.parentTaskId = some p → DescId s root c.id

/-- The store has pairwise distinct task ids. -/
abbrev NodupIds (s : List Task) : Prop := (s.map Task.id).Nodup

/-- `X` is removed by processing the children in `l`: it is one of them or a
descendant (in `acc`) of one of them.  Bookkeeping device for the recursive
deletion of `deleteTask`. -/
def RemBy (acc l : List Task) (X : Task) : Prop :=
  ∃ c ∈ l, X.id = c.id ∨ DescId acc c.id X.id

/-- Decidable check that `rank` strictly decreases from child to parent id. -/
def rankOkB (rank : Nat → Nat) (s : List Task) : Bool :=
  s.all fun t =>
    match t.parentTaskId with
    | none => true
    | some pid => rank pid < rank t.id

/-- Decidable check that `rank` is bounded by the store size on task ids. -/
def rankBoundB (rank : Nat → Nat) (s : List Task) : Bool :=
  s.all fun t => rank t.id ≤ s.length

/-- The store's parent hierarchy is a forest: some rank function strictly
decreases toward parents and is bounded by the store size.  Any store whose
parent pointers are acyclic (the only stores the source can build) admits
such a rank, e.g. the depth of a task plus one. -/
def Forest (s : List Task) : Prop :=
  ∃ rank : Nat → Nat, rankOkB rank s = true ∧ rankBoundB rank s = true

/-- Hierarchy consistency invariant of the specification:
`A.parentId == B.id ⇔ A.id ∈ B.childIds` for all tasks in the store. -/
abbrev HierProp (s : List Task) : Prop :=
  ∀ a ∈ s, ∀ b ∈ s, (a.parentTaskId = some b.id ↔ a.id ∈ b.subtasks)

/-- Decidable hierarchy/link consistency on subtask references only. -/
def hierConsistentB (s : List Task) : Bool :=
  s.all fun a => s.all fun b =>
    (a.parentTaskId == some b.id) == b.subtasks.contains a.id

/-- A store operation, carrying the arguments the corresponding source
mutator receives. -/
inductive Op
  | add (now : Int) (newId : Nat) (inp : TaskInput)
  | update (taskId : Nat) (p : Patch)
  | delete (taskId : Nat)
  | toggle (now : Int) (taskId : Nat)
  | link (fromId toId : Nat)
  | unlink (fromId toId : Nat)
  | wipeOut

/-- Apply one operation to the store. -/
def applyOp (op : Op) (s : List Task) : List Task :=
  match op with
  | .add now newId inp => (addTask now newId inp s).2
  | .update taskId p => updateTask taskId p s
  | .delete taskId => deleteTask taskId s
  | .toggle now taskId => toggleTaskCompletion now taskId s
  | .link fromId toId => linkTaskList fromId toId s
  | .unlink fromId toId => unlinkTask fromId toId s
  | .wipeOut => catastrophicWipeOut s

/-- Run a sequence of operations from a starting store. -/
def run (ops : List Op) (s : List Task) : List Task :=
  ops.foldl (fun st op => applyOp op st) s

/-- Does `i` occur anywhere in the store as a task id, a parent reference,
or a subtasks entry? -/
def mentionsId (i : Nat) (s : List Task) : Bool :=
  s.any fun t => t.id == i || t.parentTaskId == some i || t.subtasks.contains i

/-- Precondition of an operation on the current store: an added task must
use an id that occurs nowhere in the store, and a parent reference that is
either falsy or the id of an existing task.  All other operations are
unrestricted. -/
def opPreB (op : Op) (s : List Task) : Bool :=
  match op with
  | .add _ newId inp =>
    !mentionsId newId s &&
      (match inp.parentTaskId with
       | none => true
       | some pid => pid == 0 || s.any fun t => t.id == pid)
  | _ => true

/-- Validity of an operation sequence: every operation satisfies its
precondition on the store it is applied to. -/
def validOpsB (s : List Task) : List Op → Bool
  | [] => true
  | op :: rest => opPreB op s && validOpsB (applyOp op s) rest

/-- The task's importance level is an actual number other than 0, as is the
case for every level the data model admits ({1,2,3,4}). -/
abbrev ValidIL (t : Task) : Prop := t.il ≠ none ∧ t.il ≠ some 0

/-- Propositional form of `rankOkB`. -/
def RankOk (rank : Nat → Nat) (s : List Task) : Prop :=
  ∀ t ∈ s, ∀ pid, t.parentTaskId = some pid → rank pid < rank t.id

/-- Propositional form of `rankBoundB` with an explicit bound. -/
def RankBound (rank : Nat → Nat) (s : List Task) (B : Nat) : Prop :=
  ∀ t ∈ s, rank t.id ≤ B

/-- A task with innocuous default fields, used to build concrete stores. -/
def baseTask : Task :=
  { id := 0
    title := ""
    rt := some 1
    idl := some 0
    il := some 1
    createdAt := 0
    parentTaskId := none
    subtasks := []
    linksTo := []
    linkedFrom := []
    completed := false
    completedAt := none }

/-- Concrete store for the wipe-out claim: a Must task whose subtask has
importance 2. -/
def cwaA : Task := { baseTask with id := 1, il := some 1, subtasks := [2] }

/-- The non-Must subtask of `cwaA`. -/
def cwaB : Task := { baseTask with id := 2, il := some 2, parentTaskId := some 1 }

/-- Two-task store exercising `catastrophicWipeOut`. -/
def cwaEx : List Task := [cwaA, cwaB]

/-- A single task used for the self-link claim. -/
def linkX : Task := { baseTask with id := 1, linksTo := [7], linkedFrom := [8] }

/-- Singleton store for the self-link claim. -/
def linkEx : List Task := [linkX]

/-- An `addTask` input whose importance level is outside {1,2,3,4}. -/
def badInput : TaskInput :=
  { title := "", rt := some 1, idl := some 0, il := some 5, parentTaskId := none }

/-- A task with every frame-relevant field populated. -/
def updT : Task :=
  { baseTask with
    id := 1
    parentTaskId := some 9
    subtasks := [4]
    linksTo := [5]
    linkedFrom := [6]
    completed := true
    completedAt := some 3 }

/-- Store for the update-frame claim. -/
def updEx : List Task := [updT, { baseTask with id := 2 }]

/-- A patch touching every patchable field. -/
def updPatch : Patch :=
  { title := some "x", rt := some none, idl := some (some 7), il := some (some 9) }

/-- Sorting fixture: importance 2, deadline 2. -/
def sortT1 : Task := { baseTask with id := 1, il := some 2, idl := some 2 }

/-- Sorting fixture: importance 1, deadline 3. -/
def sortT2 : Task := { baseTask with id := 2, il := some 1, idl := some 3 }

/-- Sorting fixture: importance 1, deadline 1. -/
def sortT3 : Task := { baseTask with id := 3, il := some 1, idl := some 1 }

/-- The example task list of the priority-ordering claim. -/
def sortEx : List Task := [sortT1, sortT2, sortT3]

/-- Store for the completion-cascade claim: `togT` has child `togD1`, which
has child `togD2`. -/
def togT : Task := { baseTask with id := 1, subtasks := [2] }

/-- Direct child of `togT`. -/
def togD1 : Task := { baseTask with id := 2, parentTaskId := some 1, subtasks := [3] }

/-- Grandchild of `togT`. -/
def togD2 : Task := { baseTask with id := 3, parentTaskId := some 2 }

/-- Three-level store exercising the completion cascade. -/
def togEx : List Task := [togT, togD1, togD2]

/-- Store for the cascade-delete counterexample: parent `delP` links to its
child `delT`; `delT` has child `delD`; the outsider `delE` links to `delD`. -/
def delP : Task := { baseTask with id := 1, subtasks := [2], linksTo := [2] }

/-- The task to be deleted; child of `delP`. -/
def delT : Task :=
  { baseTask with id := 2, parentTaskId := some 1, subtasks := [3], linkedFrom := [1] }

/-- Child of `delT` (a descendant of the deleted task). -/
def delD : Task := { baseTask with id := 3, parentTaskId := some 2, linkedFrom := [4] }

/-- A surviving outsider that links to the descendant `delD`. -/
def delE : Task := { baseTask with id := 4, linksTo := [3] }

/-- Four-task store exercising `deleteTask`. -/
def delEx : List Task := [delP, delT, delD, delE]

/-- Clean two-task store for the cascade-delete witness. -/
def w2T : Task := { baseTask with id := 1, subtasks := [2] }

/-- Child of `w2T`. -/
def w2D : Task := { baseTask with id := 2, parentTaskId := some 1 }

/-- Witness store for the cascade-delete claim. -/
def w2Ex : List Task := [w2T, w2D]

/-- An `addTask` input for a root task. -/
def inpRoot : TaskInput :=
  { title := "", rt := some 1, idl := some 0, il := some 1, parentTaskId := none }

/-- An `addTask` input with the given parent id. -/
def inpChild (pid : Nat) : TaskInput := { inpRoot with parentTaskId := some pid }

/-- Operation sequence breaking hierarchy consistency: add a task whose
parent id 5 does not exist, then add a fresh task that happens to get id 5. -/
def cex9ops : List Op := [Op.add 0 1 (inpChild 5), Op.add 0 5 inpRoot]

/-- The first task resulting from `cex9ops`. -/
def cex9a : Task := { baseTask with id := 1, parentTaskId := some 5 }

/-- The second task resulting from `cex9ops`. -/
def cex9b : Task := { baseTask with id := 5 }

/-- A valid operation sequence exercising every mutator. -/
def w9ops : List Op :=
  [Op.add 0 1 inpRoot, Op.add 0 2 (inpChild 1), Op.toggle 5 1, Op.link 1 2,
   Op.unlink 1 2, Op.update 1 updPatch, Op.delete 2, Op.wipeOut]

-- ====================================================================
-- Theorems
-- ====================================================================

/-- Folding a task's `rt || 0` from an accumulator is the accumulator plus
the sum of the coerced values. -/
theorem foldl_rt_eq (l : List Task) :
    ∀ a : ℚ, l.foldl (fun sum task => sum + task.rt.getD 0) a
      = a + (l.map fun t => t.rt.getD 0).sum := by
  induction l with
  | nil => intro a; simp
  | cons t l ih => intro a; simp [ih, add_assoc]

/-- C4: `getRPStatus` classifies with half-open thresholds: any rp below 0.8
is Safe, any rp in [0.8, 1) is Risky, any rp at or above 1 is Overload; in
particular 0.8 itself is Risky and 1.0 itself is Overload. -/
theorem getRPStatus_thresholds (rp : ℚ) :
    (rp < 0.8 → getRPStatus rp = Zone.Safe) ∧
    (0.8 ≤ rp → rp < 1 → getRPStatus rp = Zone.Risky) ∧
    (1 ≤ rp → getRPStatus rp = Zone.Overload) ∧
    getRPStatus 0.8 = Zone.Risky ∧ getRPStatus 1 = Zone.Overload := by
  have hsafe : RP_LIMITS_SAFE = (0.8 : ℚ) := rfl
  have hrisky : RP_LIMITS_RISKY = (1 : ℚ) := by norm_num [RP_LIMITS_RISKY]
  refine ⟨fun h => ?_, fun h1 h2 => ?_, fun h => ?_, ?_, ?_⟩ <;>
    simp only [getRPStatus, hsafe, hrisky] <;> split_ifs <;>
    first
      | rfl
      | linarith

/-- Witness for C4 at the boundary and interior points. -/
theorem getRPStatus_thresholds_witness :
    getRPStatus (1/2) = Zone.Safe ∧ getRPStatus (9/10) = Zone.Risky ∧
    getRPStatus 2 = Zone.Overload ∧ getRPStatus 0.8 = Zone.Risky ∧
    getRPStatus 1 = Zone.Overload :=
  ⟨(getRPStatus_thresholds (1/2)).1 (by norm_num),
   (getRPStatus_thresholds (9/10)).2.1 (by norm_num) (by norm_num),
   (getRPStatus_thresholds 2).2.2.1 (by norm_num),
   (getRPStatus_thresholds 0).2.2.2.1,
   (getRPStatus_thresholds 0).2.2.2.2⟩

/-- C5: the realism point is 0 whenever the available time is nonpositive,
and the total required time over the available time otherwise; the total
required time is the sum of the tasks' `rt` values, is 0 on the empty list,
and treats a missing/invalid `rt` as 0 (every function involved is total,
so nothing throws). -/
theorem calculateRealismPoint_spec (tasks : List Task) (availableTime : ℚ) :
    (availableTime ≤ 0 → calculateRealismPoint tasks availableTime = 0) ∧
    (0 < availableTime →
      calculateRealismPoint tasks availableTime = calculateTotalRT tasks / availableTime) ∧
    calculateTotalRT [] = 0 ∧
    calculateTotalRT tasks = (tasks.map fun t => t.rt.getD 0).sum := by
  refine ⟨fun h => ?_, fun h => ?_, rfl, ?_⟩
  · simp only [calculateRealismPoint, if_pos (Or.inr h)]
  · have hcond : ¬(availableTime = 0 ∨ availableTime ≤ 0) := by
      push_neg
      exact ⟨ne_of_gt h, h⟩
    simp only [calculateRealismPoint, if_neg hcond]
  · by_cases he : tasks.isEmpty
    · rw [List.isEmpty_iff] at he
      simp [calculateTotalRT, he]
    · simp only [calculateTotalRT, if_neg he, foldl_rt_eq, zero_add]

/-- Witness for C5 on the scenario of the specification: tasks of 6 and 2
hours against 8 available hours, and the zero-guard cases. -/
theorem calculateRealismPoint_spec_witness :
    calculateRealismPoint [{ baseTask with rt := some 6 }, { baseTask with rt := some 2 }] 0 = 0 ∧
    calculateRealismPoint [{ baseTask with rt := some 6 }, { baseTask with rt := some 2 }] 8
      = calculateTotalRT [{ baseTask with rt := some 6 }, { baseTask with rt := some 2 }] / 8 :=
  ⟨(calculateRealismPoint_spec [{ baseTask with rt := some 6 }, { baseTask with rt := some 2 }] 0).1
      (by norm_num),
   (calculateRealismPoint_spec [{ baseTask with rt := some 6 }, { baseTask with rt := some 2 }] 8).2.1
      (by norm_num)⟩

/-- C1 counterexample: on the concrete store `cwaEx` the wipe-out removes
the non-Must task `cwaB` but the surviving `cwaA` still carries `cwaB.id`
in its `subtasks`, so the claim's "no surviving task references a removed
task" conjunct is false (and the source callback returns `undefined`, not a
count). -/
theorem catastrophicWipeOut_counterexample :
    catastrophicWipeOut cwaEx = [cwaA] ∧ cwaB ∈ cwaEx ∧ cwaB.il ≠ some 1 ∧
    cwaA.il = some 1 ∧ cwaB.id ∈ cwaA.subtasks := by
  refine ⟨by decide, by decide, by decide, by decide, by decide⟩

/-- C1 amended: `catastrophicWipeOut` retains exactly the tasks whose
importance level is `IMPORTANCE.MUST` (1) and removes every other task at
any depth; it returns no count and does not strip references to removed ids
from the survivors. -/
theorem catastrophicWipeOut_retains_exactly_must (s : List Task) (t : Task) :
    t ∈ catastrophicWipeOut s ↔ t ∈ s ∧ t.il = some IMPORTANCE_MUST := by
  simp [catastrophicWipeOut, List.mem_filter]

/-- Witness for C1 (amended) on the concrete store `cwaEx`. -/
theorem catastrophicWipeOut_retains_witness : cwaA ∈ catastrophicWipeOut cwaEx :=
  (catastrophicWipeOut_retains_exactly_must cwaEx cwaA).mpr ⟨by decide, by decide⟩

/-- C3 counterexample: on the concrete singleton store, `linkTask 1 1`
completes normally with the store unchanged — it does not produce an
`InvalidOperation` error as the claim requires. -/
theorem linkTask_self_counterexample :
    linkTask 1 1 linkEx = Except.ok linkEx ∧
    linkTask 1 1 linkEx ≠ Except.error PlanError.invalidOperation := by
  refine ⟨rfl, by simp [linkTask]⟩

/-- C3 amended: a self-link is rejected by a silent early return, not by an
error: `linkTask(x, x)` returns normally and leaves the whole store — in
particular the task's `linksTo` and `linkedFrom` — unchanged. -/
theorem linkTask_self_noop (s : List Task) (x : Nat) : linkTask x x s = Except.ok s := by
  simp [linkTask, linkTaskList]

/-- Witness for C3 (amended) on the concrete store. -/
theorem linkTask_self_noop_witness : linkTask 1 1 linkEx = Except.ok linkEx :=
  linkTask_self_noop linkEx 1

/-- C8 counterexample: adding a task whose importance level is 5 (outside
{1,2,3,4}) to the empty store does not leave the store unchanged — the task
is stored, invalid level and all, and no error is raised. -/
theorem addTask_no_validation_counterexample :
    ((addTask 0 1 badInput []).2).length = 1 ∧ badInput.il = some 5 ∧
    (∃ t ∈ (addTask 0 1 badInput []).2, t.il = some 5) := by
  refine ⟨by decide, by decide, ⟨(addTask 0 1 badInput []).1, by decide, by decide⟩⟩

/-- C8 amended: `addTask` and `updateTask` perform no validation at all:
whatever the (possibly failed) coercions produced is stored as-is, the
store always grows by exactly one task on `addTask` (carrying the given
rt/idl/il verbatim), and `updateTask` always maps the store keeping its
size; no `ValidationError` exists in the code. -/
theorem addTask_updateTask_no_validation (now : Int) (newId : Nat) (inp : TaskInput)
    (s : List Task) :
    ((addTask now newId inp s).2).length = s.length + 1 ∧
    (∃ t ∈ (addTask now newId inp s).2,
      t.id = newId ∧ t.rt = inp.rt ∧ t.idl = inp.idl ∧ t.il = inp.il) ∧
    ∀ (taskId : Nat) (p : Patch), (updateTask taskId p s).length = s.length := by
  refine ⟨?_, ?_, fun taskId p => by simp [updateTask]⟩
  · unfold addTask
    split <;> simp
  · simp only [addTask]
    split
    · by_cases hp : some newId = inp.parentTaskId
      · refine ⟨_, List.mem_map_of_mem _ (List.mem_append_right s (List.mem_singleton.mpr rfl)), ?_⟩
        simp [newTaskOf, hp]
      · refine ⟨_, List.mem_map_of_mem _ (List.mem_append_right s (List.mem_singleton.mpr rfl)), ?_⟩
        simp [newTaskOf, hp]
    · exact ⟨_, List.mem_append_right s (List.mem_singleton.mpr rfl), rfl, rfl, rfl, rfl⟩

/-- C10: `updateTask` with a patch (which can only carry title/rt/idl/il)
preserves, on the patched task, its id, parent, subtasks, links, and
completion state, and leaves every other task entirely unchanged. -/
theorem updateTask_frame (s : List Task) (taskId : Nat) (p : Patch) :
    List.Forall₂ (fun t t' =>
      t'.id = t.id ∧ t'.parentTaskId = t.parentTaskId ∧ t'.subtasks = t.subtasks ∧
      t'.linksTo = t.linksTo ∧ t'.linkedFrom = t.linkedFrom ∧
      t'.completed = t.completed ∧ t'.completedAt = t.completedAt ∧
      (t.id ≠ taskId → t' = t)) s (updateTask taskId p s) := by
  unfold updateTask
  rw [List.forall₂_map_right_iff, List.forall₂_same]
  intro t ht
  by_cases h : t.id = taskId <;> simp [h, applyPatch]

/-- The comparator of `sortTasksByPriority` is antisymmetric under swap. -/
theorem comparePriority_antisymm (a b : Task) : comparePriority b a = -comparePriority a b := by
  unfold comparePriority
  by_cases h : a.il = b.il
  · rw [if_neg (by simp [h]), if_neg (by simp [h])]
    ring
  · rw [if_pos (Ne.symm h), if_pos h]
    ring

/-- The comparator is total. -/
theorem priorityLE_total (a b : Task) : priorityLE a b ∨ priorityLE b a := by
  unfold priorityLE
  rw [comparePriority_antisymm]
  omega

/-- Over tasks with genuine importance levels, the comparator is the
lexicographic order on (importance, deadline). -/
theorem priorityLE_iff_of_valid (a b : Task) (ha : ValidIL a) (hb : ValidIL b) :
    priorityLE a b ↔
      (ilNum a < ilNum b ∨ (ilNum a = ilNum b ∧ idlNum a ≤ idlNum b)) := by
  obtain ⟨ha1, ha2⟩ := ha
  obtain ⟨hb1, hb2⟩ := hb
  unfold priorityLE comparePriority
  by_cases h : a.il = b.il
  · have heq : ilNum a = ilNum b := by rw [ilNum, ilNum, h]
    rw [if_neg (by simp [h])]
    omega
  · rw [if_pos h]
    have hne : ilNum a ≠ ilNum b := by
      cases hA : a.il with
      | none => exact absurd hA ha1
      | some va =>
        cases hB : b.il with
        | none => exact absurd hB hb1
        | some vb =>
          simp only [ilNum, hA, hB, Option.getD_some]
          intro heq
          exact h (by rw [hA, hB, heq])
    omega

/-- Over tasks with genuine importance levels, the comparator is transitive. -/
theorem priorityLE_trans_of_valid (a b c : Task) (ha : ValidIL a) (hb : ValidIL b)
    (hc : ValidIL c) (h1 : priorityLE a b) (h2 : priorityLE b c) :
    priorityLE a c := by
  rw [priorityLE_iff_of_valid a b ha hb] at h1
  rw [priorityLE_iff_of_valid b c hb hc] at h2
  rw [priorityLE_iff_of_valid a c ha hc]
  omega

/-- C7: on every task list whose importance levels are genuine numbers (as
all levels in {1,2,3,4} are), `sortTasksByPriority` returns a permutation of
the input (the input itself, being a fresh copy, is never mutated), ordered
by importance ascending then deadline ascending with a missing deadline
compared as the epoch, and the sort is stable: two tasks the comparator
ties keep their input order. -/
theorem sortTasksByPriority_spec (l : List Task) (hIL : ∀ t ∈ l, ValidIL t) :
    (sortTasksByPriority l).Perm l ∧
    List.Pairwise (fun a b => ilNum a < ilNum b ∨ (ilNum a = ilNum b ∧ idlNum a ≤ idlNum b))
      (sortTasksByPriority l) ∧
    ∀ a b : Task, priorityLE a b → priorityLE b a →
      [a, b].Sublist l → [a, b].Sublist (sortTasksByPriority l) := by
  refine ⟨List.perm_insertionSort priorityLE l, ?_, ?_⟩
  · haveI htr : IsTrans {t // t ∈ l} (fun u v => priorityLE u.val v.val) :=
      ⟨fun x y z h1 h2 =>
        priorityLE_trans_of_valid x.val y.val z.val (hIL _ x.property) (hIL _ y.property)
          (hIL _ z.property) h1 h2⟩
    haveI hto : IsTotal {t // t ∈ l} (fun u v => priorityLE u.val v.val) :=
      ⟨fun x y => priorityLE_total x.val y.val⟩
    have hsorted := List.sorted_insertionSort (fun u v => priorityLE u.val v.val) l.attach
    have hmap : List.map Subtype.val
        (List.insertionSort (fun u v : {t // t ∈ l} => priorityLE u.val v.val) l.attach)
          = sortTasksByPriority l := by
      rw [List.map_insertionSort (fun u v : {t // t ∈ l} => priorityLE u.val v.val)
            priorityLE Subtype.val l.attach (fun a _ b _ => Iff.rfl),
          List.attach_map_subtype_val]
      rfl
    have h2 : List.Pairwise (fun a b : Task => priorityLE a b) (sortTasksByPriority l) := by
      rw [← hmap, List.pairwise_map]
      exact hsorted
    refine List.Pairwise.imp_of_mem ?_ h2
    intro a b hamem hbmem hab
    have haIL : ValidIL a := hIL a ((List.perm_insertionSort priorityLE l).mem_iff.mp hamem)
    have hbIL : ValidIL b := hIL b ((List.perm_insertionSort priorityLE l).mem_iff.mp hbmem)
    exact (priorityLE_iff_of_valid a b haIL hbIL).mp hab
  · intro a b h1 h2 hsub
    have hpair : List.Pairwise priorityLE [a, b] := by
      refine List.Pairwise.cons ?_ (by simp)
      intro u hu
      have : u = b := by simpa using hu
      subst this
      exact h1
    exact List.sublist_insertionSort hpair hsub

/-- Two tasks of a store with distinct ids are equal when their ids agree. -/
theorem task_eq_of_id_eq {s : List Task} (h : NodupIds s) {a b : Task}
    (ha : a ∈ s) (hb : b ∈ s) (hid : a.id = b.id) : a = b :=
  List.inj_on_of_nodup_map h ha hb hid

/-- On a store with distinct ids, `find?` by a member's id finds the member. -/
theorem find_eq_of_mem {s : List Task} {T : Task} (h : NodupIds s) (hT : T ∈ s) :
    s.find? (fun t => t.id == T.id) = some T := by
  induction s with
  | nil => cases hT
  | cons a l ih =>
    simp only [NodupIds, List.map_cons, List.nodup_cons] at h
    rcases List.mem_cons.mp hT with rfl | hTl
    · exact List.find?_cons_of_pos _ (by simp)
    · have hne : a.id ≠ T.id := by
        intro he
        exact h.1 (he ▸ List.mem_map_of_mem Task.id hTl)
      rw [List.find?_cons_of_neg _ (by simp [hne])]
      exact ih h.2 hTl

/-- Reaching `x` from the id of a task `c` that is a child of `pid` reaches
`x` from `pid` as well. -/
theorem descId_lift {s : List Task} {c : Task} {pid x : Nat} (hc : c ∈ s)
    (hp : c.parentTaskId = some pid) (h : DescId s c.id x) : DescId s pid x := by
  induction h with
  | base d hd hpar => exact DescId.step c.id d (DescId.base c hc hp) hd hpar
  | step p d hpd hd hpar ih => exact DescId.step p d ih hd hpar

/-- The descendant relation is monotone in the store. -/
theorem descId_mono {s₁ s₂ : List Task} (hsub : ∀ t, t ∈ s₁ → t ∈ s₂) {r x : Nat}
    (h : DescId s₁ r x) : DescId s₂ r x := by
  induction h with
  | base c hc hp => exact DescId.base c (hsub c hc) hp
  | step p c hpd hc hp ih => exact DescId.step p c ih (hsub c hc) hp

/-- Under a parent-decreasing rank, a descendant has strictly larger rank
than its ancestor. -/
theorem descId_rank {s : List Task} {rank : Nat → Nat} (hr : RankOk rank s) {r x : Nat}
    (h : DescId s r x) : rank r < rank x := by
  induction h with
  | base c hc hp => exact hr c hc r hp
  | step p c hpd hc hp ih => exact lt_trans ih (hr c hc p hp)

/-- A descendant id is the id of some task of the store. -/
theorem descId_mem {s : List Task} {r x : Nat} (h : DescId s r x) : ∃ c ∈ s, c.id = x := by
  induction h with
  | base c hc hp => exact ⟨c, hc, rfl⟩
  | step p c hpd hc hp ih => exact ⟨c, hc, rfl⟩

/-- Inversion for the descendant relation. -/
theorem descId_cases {s : List Task} {r x : Nat} (h : DescId s r x) :
    (∃ c, c ∈ s ∧ c.parentTaskId = some r ∧ c.id = x) ∨
    (∃ p c, DescId s r p ∧ c ∈ s ∧ c.parentTaskId = some p ∧ c.id = x) := by
  cases h with
  | base c hc hp => exact Or.inl ⟨c, hc, hp, rfl⟩
  | step p c hd hc hp => exact Or.inr ⟨p, c, hd, hc, hp, rfl⟩

/-- A descendant of `r` is a direct child of `r`, or a descendant of a
direct child of `r` (top-down peeling, matching the source recursions). -/
theorem descId_peel {s : List Task} {r x : Nat} (h : DescId s r x) :
    ∃ c, c ∈ s ∧ c.parentTaskId = some r ∧ (x = c.id ∨ DescId s c.id x) := by
  induction h with
  | base c hc hp => exact ⟨c, hc, hp, Or.inl rfl⟩
  | step p c hpd hc hp ih =>
    obtain ⟨e, he, hep, hcase⟩ := ih
    rcases hcase with heq | hdesc
    · exact ⟨e, he, hep, Or.inr (DescId.base c hc (hp.trans (by rw [heq])))⟩
    · exact ⟨e, he, hep, Or.inr (DescId.step p c hdesc hc hp)⟩

/-- Two ancestors of the same id are equal or one is a descendant of the
other: on a store with distinct ids the upward parent chain is unique. -/
theorem descId_comparable {s : List Task} (hnd : NodupIds s) {a x : Nat}
    (h1 : DescId s a x) : ∀ {b : Nat}, DescId s b x →
      a = b ∨ DescId s a b ∨ DescId s b a := by
  induction h1 with
  | base c hc hp =>
    intro b h2
    rcases descId_cases h2 with ⟨c', hc', hp', hid⟩ | ⟨p', c', hdesc, hc', hp', hid⟩
    · have hcc : c' = c := task_eq_of_id_eq hnd hc' hc hid
      rw [hcc, hp] at hp'
      exact Or.inl (Option.some.inj hp')
    · have hcc : c' = c := task_eq_of_id_eq hnd hc' hc hid
      rw [hcc, hp] at hp'
      obtain rfl : p' = a := Option.some.inj hp'.symm
      exact Or.inr (Or.inr hdesc)
  | step p c hdesc hc hp ih =>
    intro b h2
    rcases descId_cases h2 with ⟨c', hc', hp', hid⟩ | ⟨p', c', hdesc', hc', hp', hid⟩
    · have hcc : c' = c := task_eq_of_id_eq hnd hc' hc hid
      rw [hcc, hp] at hp'
      obtain rfl : p = b := Option.some.inj hp'
      exact Or.inr (Or.inl hdesc)
    · have hcc : c' = c := task_eq_of_id_eq hnd hc' hc hid
      rw [hcc, hp] at hp'
      obtain rfl : p' = p := Option.some.inj hp'.symm
      exact ih hdesc'

/-- Everything the fuelled descendant collection finds is a descendant. -/
theorem descIdsGo_sound :
    ∀ (fuel pid : Nat) (s : List Task) (x : Nat),
      x ∈ getDescIdsGo fuel pid s → DescId s pid x := by
  intro fuel
  induction fuel with
  | zero => intro pid s x hx; simp [getDescIdsGo] at hx
  | succ f ih =>
    intro pid s x hx
    simp only [getDescIdsGo, List.mem_flatMap] at hx
    obtain ⟨c, hc, hx⟩ := hx
    have hcs := List.mem_filter.mp hc
    have hpar : c.parentTaskId = some pid := by simpa using hcs.2
    rcases List.mem_cons.mp hx with rfl | hx'
    · exact DescId.base c hcs.1 hpar
    · exact descId_lift hcs.1 hpar (ih c.id s x hx')

/-- With enough fuel relative to the rank of the root, the fuelled
collection finds every descendant. -/
theorem descIdsGo_complete {s : List Task} {rank : Nat → Nat} {B : Nat}
    (hr : RankOk rank s) (hb : RankBound rank s B) :
    ∀ (fuel pid x : Nat), B ≤ rank pid + fuel → DescId s pid x →
      x ∈ getDescIdsGo fuel pid s := by
  intro fuel
  induction fuel with
  | zero =>
    intro pid x hfuel hdesc
    exfalso
    obtain ⟨c, hc, rfl⟩ := descId_mem hdesc
    have h1 := descId_rank hr hdesc
    have h2 := hb c hc
    omega
  | succ f ih =>
    intro pid x hfuel hdesc
    obtain ⟨c, hc, hp, hcase⟩ := descId_peel hdesc
    have hcf : c ∈ s.filter (fun t => t.parentTaskId == some pid) :=
      List.mem_filter.mpr ⟨hc, by simp [hp]⟩
    simp only [getDescIdsGo, List.mem_flatMap]
    refine ⟨c, hcf, ?_⟩
    rcases hcase with rfl | hdesc'
    · exact List.mem_cons_self _ _
    · refine List.mem_cons_of_mem _ (ih c.id x ?_ hdesc')
      have : rank pid < rank c.id := hr c hc pid hp
      omega

/-- Propositional reading of `rankOkB`. -/
theorem rankOk_of_B {rank : Nat → Nat} {s : List Task} (h : rankOkB rank s = true) :
    RankOk rank s := by
  intro t ht pid hp
  have := List.all_eq_true.mp h t ht
  rw [hp] at this
  simpa using this

/-- Propositional reading of `rankBoundB`. -/
theorem rankBound_of_B {rank : Nat → Nat} {s : List Task} (h : rankBoundB rank s = true) :
    RankBound rank s s.length := by
  intro t ht
  have := List.all_eq_true.mp h t ht
  simpa using this

/-- On a forest store, the code's `getDescendantIds` computes exactly the
descendant relation. -/
theorem mem_getDescendantIds_iff {s : List Task} {rank : Nat → Nat}
    (hr : RankOk rank s) (hb : RankBound rank s s.length) (pid x : Nat) :
    x ∈ getDescendantIds pid s ↔ DescId s pid x :=
  ⟨descIdsGo_sound s.length pid s x,
   descIdsGo_complete hr hb s.length pid x (Nat.le_add_left _ _)⟩

/-- A map over a store relates every element to its image. -/
theorem forall2_map_self {R : Task → Task → Prop} {f : Task → Task} {s : List Task}
    (h : ∀ t ∈ s, R t (f t)) : List.Forall₂ R s (s.map f) := by
  rw [List.forall₂_map_right_iff, List.forall₂_same]
  exact h

/-- Shape of `toggleTaskCompletion` on an incomplete target: the clicked
task and all collected descendants become completed at `now`. -/
theorem toggle_eq_incomplete (now : Int) (taskId : Nat) (s : List Task) (T : Task)
    (hfind : s.find? (fun t => t.id == taskId) = some T) (hcomp : T.completed = false) :
    toggleTaskCompletion now taskId s = s.map fun t =>
      if t.id = taskId then { t with completed := true, completedAt := some now }
      else if t.id ∈ getDescendantIds taskId s then
        { t with completed := true, completedAt := some now }
      else t := by
  unfold toggleTaskCompletion
  rw [hfind]
  simp [hcomp]

/-- Shape of `toggleTaskCompletion` on a completed target: only the clicked
task changes, back to incomplete with its completion date cleared. -/
theorem toggle_eq_complete (now : Int) (taskId : Nat) (s : List Task) (T : Task)
    (hfind : s.find? (fun t => t.id == taskId) = some T) (hcomp : T.completed = true) :
    toggleTaskCompletion now taskId s = s.map fun t =>
      if t.id = taskId then { t with completed := false, completedAt := none }
      else t := by
  unfold toggleTaskCompletion
  rw [hfind]
  simp [hcomp]

/-- C6: on a forest store with distinct ids, toggling an incomplete task `T`
completes `T` and every descendant of `T`, all with the identical timestamp
`now`, leaving all other tasks unchanged; toggling a completed `T` changes
only `T` (clearing its completion), leaving every other task — descendants
included — unchanged. -/
theorem toggleTaskCompletion_cascade (now : Int) (s : List Task) (T : Task)
    (hT : T ∈ s) (hnd : NodupIds s) (hf : Forest s) :
    (T.completed = false →
      List.Forall₂ (fun t t' =>
        (t.id = T.id → t' = { t with completed := true, completedAt := some now }) ∧
        (DescId s T.id t.id → t' = { t with completed := true, completedAt := some now }) ∧
        (t.id ≠ T.id → ¬DescId s T.id t.id → t' = t))
        s (toggleTaskCompletion now T.id s)) ∧
    (T.completed = true →
      List.Forall₂ (fun t t' =>
        (t.id = T.id → t' = { t with completed := false, completedAt := none }) ∧
        (t.id ≠ T.id → t' = t))
        s (toggleTaskCompletion now T.id s)) := by
  obtain ⟨rank, hokB, hbdB⟩ := hf
  have hok := rankOk_of_B hokB
  have hbd := rankBound_of_B hbdB
  have hfind : s.find? (fun t => t.id == T.id) = some T := find_eq_of_mem hnd hT
  constructor
  · intro hcomp
    rw [toggle_eq_incomplete now T.id s T hfind hcomp]
    refine forall2_map_self ?_
    intro t ht
    refine ⟨fun hid => by rw [if_pos hid], fun hdesc => ?_, fun hid hdesc => ?_⟩
    · by_cases hid : t.id = T.id
      · rw [if_pos hid]
      · rw [if_neg hid, if_pos ((mem_getDescendantIds_iff hok hbd T.id t.id).mpr hdesc)]
    · rw [if_neg hid, if_neg fun hmem => hdesc ((mem_getDescendantIds_iff hok hbd T.id t.id).mp hmem)]
  · intro hcomp
    rw [toggle_eq_complete now T.id s T hfind hcomp]
    refine forall2_map_self ?_
    intro t ht
    exact ⟨fun hid => by rw [if_pos hid], fun hid => by rw [if_neg hid]⟩

/-- The recursive deletion only ever removes tasks. -/
theorem delGo_sublist : ∀ (fuel pid : Nat) (acc : List Task),
    (deleteSubtasksGo fuel pid acc).Sublist acc := by
  intro fuel
  induction fuel with
  | zero => intro pid acc; exact List.Sublist.refl _
  | succ f ih =>
    intro pid acc
    have key : ∀ (l cur : List Task),
        (l.foldl (fun cur sub =>
          deleteSubtasksGo f sub.id (cur.filter fun t => t.id ≠ sub.id)) cur).Sublist cur := by
      intro l
      induction l with
      | nil => intro cur; exact List.Sublist.refl _
      | cons c l ihl =>
        intro cur
        refine List.Sublist.trans (ihl _) ?_
        exact List.Sublist.trans (ih c.id _) (List.filter_sublist _)
    exact key _ acc

/-- A descendant chain survives into any restriction of the store that keeps
every task descending from the root. -/
theorem descId_restrict {s s' : List Task} {r : Nat}
    (hpres : ∀ e, e ∈ s → DescId s r e.id → e ∈ s') :
    ∀ {x : Nat}, DescId s r x → DescId s' r x := by
  intro x h
  induction h with
  | base c hc hp => exact DescId.base c (hpres c hc (DescId.base c hc hp)) hp
  | step p c hd hc hp ih => exact DescId.step p c ih (hpres c hc (DescId.step p c hd hc hp)) hp

/-- Characterization of the recursive subtask deletion of `deleteTask`: on a
forest store with distinct ids and enough fuel, it keeps exactly the tasks
that are not descendants of the given root. -/
theorem delGo_char {rank : Nat → Nat} {B : Nat} :
    ∀ (fuel pid : Nat) (acc : List Task),
      NodupIds acc → RankOk rank acc → RankBound rank acc B → B ≤ rank pid + fuel →
      ∀ X, X ∈ deleteSubtasksGo fuel pid acc ↔ X ∈ acc ∧ ¬DescId acc pid X.id := by
  intro fuel
  induction fuel with
  | zero =>
    intro pid acc hnd hok hbd hfuel X
    constructor
    · intro hX
      refine ⟨hX, fun hdesc => ?_⟩
      obtain ⟨c, hc, hcid⟩ := descId_mem hdesc
      have h1 := descId_rank hok hdesc
      have h2 := hbd c hc
      rw [hcid] at h2
      omega
    · intro h
      exact h.1
  | succ f ih =>
    intro pid acc hnd hok hbd hfuel X
    have hsubs_fact : ∀ c ∈ acc.filter (fun t => t.parentTaskId == some pid),
        c ∈ acc ∧ c.parentTaskId = some pid := by
      intro c hc
      exact ⟨(List.mem_filter.mp hc).1, by simpa using (List.mem_filter.mp hc).2⟩
    have hsib : ∀ c ∈ acc.filter (fun t => t.parentTaskId == some pid),
        ∀ c' ∈ acc.filter (fun t => t.parentTaskId == some pid),
          DescId acc c.id c'.id → False := by
      intro c hc c' hc' hdesc
      obtain ⟨hcacc, hcp⟩ := hsubs_fact c hc
      obtain ⟨h'acc, h'p⟩ := hsubs_fact c' hc'
      rcases descId_cases hdesc with ⟨d, hd, hdp, hdid⟩ | ⟨p', d, hdesc', hd, hdp, hdid⟩
      · have hdc : d = c' := task_eq_of_id_eq hnd hd h'acc hdid
        rw [hdc, h'p] at hdp
        obtain rfl : pid = c.id := Option.some.inj hdp
        have := hok c hcacc c.id hcp
        omega
      · have hdc : d = c' := task_eq_of_id_eq hnd hd h'acc hdid
        rw [hdc, h'p] at hdp
        have hppid : p' = pid := (Option.some.inj hdp).symm
        rw [hppid] at hdesc'
        have h1 := descId_rank hok hdesc'
        have h2 := hok c hcacc pid hcp
        omega
    have FL : ∀ (rest done cur : List Task),
        acc.filter (fun t => t.parentTaskId == some pid) = done ++ rest →
        cur.Sublist acc →
        (∀ Y, Y ∈ cur ↔ Y ∈ acc ∧ ¬RemBy acc done Y) →
        ∀ Y, Y ∈ rest.foldl (fun cur sub =>
            deleteSubtasksGo f sub.id (cur.filter fun t => t.id ≠ sub.id)) cur
          ↔ Y ∈ acc ∧ ¬RemBy acc (done ++ rest) Y := by
      intro rest
      induction rest with
      | nil =>
        intro done cur hsplit hsub hcur Y
        simpa using hcur Y
      | cons c rest' ihr =>
        intro done cur hsplit hsub hcur Y
        have hcsubs : c ∈ acc.filter (fun t => t.parentTaskId == some pid) := by
          rw [hsplit]
          exact List.mem_append_right done (List.mem_cons_self c rest')
        obtain ⟨hcacc, hcp⟩ := hsubs_fact c hcsubs
        have hsub1 : (cur.filter fun t => t.id ≠ c.id).Sublist acc :=
          (List.filter_sublist cur).trans hsub
        have hnd1 : NodupIds (cur.filter fun t => t.id ≠ c.id) :=
          List.Nodup.sublist (hsub1.map Task.id) hnd
        have hok1 : RankOk rank (cur.filter fun t => t.id ≠ c.id) :=
          fun t ht pid' hp => hok t (hsub1.subset ht) pid' hp
        have hbd1 : RankBound rank (cur.filter fun t => t.id ≠ c.id) B :=
          fun t ht => hbd t (hsub1.subset ht)
        have hrank_c : rank pid < rank c.id := hok c hcacc pid hcp
        have hdel := ih c.id (cur.filter fun t => t.id ≠ c.id) hnd1 hok1 hbd1 (by omega)
        have hcur1 : ∀ Z, Z ∈ (cur.filter fun t => t.id ≠ c.id) ↔
            (Z ∈ acc ∧ ¬RemBy acc done Z) ∧ Z.id ≠ c.id := by
          intro Z
          rw [List.mem_filter]
          constructor
          · rintro ⟨hmem, hne⟩
            exact ⟨(hcur Z).mp hmem, by simpa using hne⟩
          · rintro ⟨hmem, hne⟩
            exact ⟨(hcur Z).mpr hmem, by simpa using hne⟩
        have hids_ne : ∀ c' ∈ done, c'.id ≠ c.id := by
          intro c' hc' he'
          have hnds : (List.map Task.id (acc.filter fun t => t.parentTaskId == some pid)).Nodup :=
            List.Nodup.sublist (List.Sublist.map Task.id (List.filter_sublist acc)) hnd
          rw [hsplit, List.map_append] at hnds
          have hdisj := (List.nodup_append.mp hnds).2.2
          exact hdisj (List.mem_map_of_mem Task.id hc') (he' ▸ (by simp))
        have hpres : ∀ e, e ∈ acc → DescId acc c.id e.id →
            e ∈ (cur.filter fun t => t.id ≠ c.id) := by
          intro e he hdesc
          rw [hcur1 e]
          refine ⟨⟨he, ?_⟩, fun he' => ?_⟩
          · rintro ⟨c', hc', hcase⟩
            have hc'subs : c' ∈ acc.filter (fun t => t.parentTaskId == some pid) := by
              rw [hsplit]
              exact List.mem_append_left _ hc'
            rcases hcase with hid | hdesc'
            · have heq : e = c' := task_eq_of_id_eq hnd he (hsubs_fact c' hc'subs).1 hid
              exact hsib c hcsubs c' hc'subs (heq ▸ hdesc)
            · rcases descId_comparable hnd hdesc' hdesc with heq | hd1 | hd2
              · -- c'.id = c.id contradicts distinctness inside the filtered children
                exact hids_ne c' hc' heq
              · -- c would be a descendant of its sibling
                exact hsib c' hc'subs c hcsubs hd1
              · exact hsib c hcsubs c' hc'subs hd2
          · rw [he'] at hdesc
            have := descId_rank hok hdesc
            omega
        have hchain : ∀ x, DescId acc c.id x ↔
            DescId (cur.filter fun t => t.id ≠ c.id) c.id x := fun x =>
          ⟨fun h => descId_restrict hpres h,
           fun h => descId_mono (fun t ht => hsub1.subset ht) h⟩
        have hcur2 : ∀ Z, Z ∈ deleteSubtasksGo f c.id (cur.filter fun t => t.id ≠ c.id) ↔
            Z ∈ acc ∧ ¬RemBy acc (done ++ [c]) Z := by
          intro Z
          rw [hdel Z, hcur1 Z]
          constructor
          · rintro ⟨⟨⟨hZacc, hnotdone⟩, hZne⟩, hnotdesc⟩
            refine ⟨hZacc, ?_⟩
            rintro ⟨c', hc', hcase⟩
            rcases List.mem_append.mp hc' with hdone | hcm
            · exact hnotdone ⟨c', hdone, hcase⟩
            · obtain rfl : c' = c := by simpa using hcm
              rcases hcase with hid | hdesc
              · exact hZne hid
              · exact hnotdesc ((hchain Z.id).mp hdesc)
          · rintro ⟨hZacc, hnot⟩
            have hnotdone : ¬RemBy acc done Z :=
              fun ⟨c', hc', hcase⟩ => hnot ⟨c', List.mem_append_left _ hc', hcase⟩
            have hZne : Z.id ≠ c.id :=
              fun hid => hnot ⟨c, List.mem_append_right _ (by simp), Or.inl hid⟩
            refine ⟨⟨⟨hZacc, hnotdone⟩, hZne⟩, fun hdesc =>
              hnot ⟨c, List.mem_append_right _ (by simp), Or.inr ((hchain Z.id).mpr hdesc)⟩⟩
        have hsub2 : (deleteSubtasksGo f c.id (cur.filter fun t => t.id ≠ c.id)).Sublist acc :=
          (delGo_sublist f c.id _).trans hsub1
        have happ : acc.filter (fun t => t.parentTaskId == some pid) = (done ++ [c]) ++ rest' := by
          rw [hsplit, List.append_assoc]
          rfl
        have hrec := ihr (done ++ [c])
          (deleteSubtasksGo f c.id (cur.filter fun t => t.id ≠ c.id)) happ hsub2 hcur2 Y
        rw [List.foldl_cons]
        rw [show (done ++ [c]) ++ rest' = done ++ c :: rest' from by
          rw [List.append_assoc]; rfl] at hrec
        exact hrec
    have hfold := FL (acc.filter fun t => t.parentTaskId == some pid) [] acc rfl
      (List.Sublist.refl acc) (fun Z => by simp [RemBy]) X
    have hRem : RemBy acc (acc.filter fun t => t.parentTaskId == some pid) X ↔
        DescId acc pid X.id := by
      constructor
      · rintro ⟨c, hc, hcase⟩
        obtain ⟨hcacc, hcp⟩ := hsubs_fact c hc
        rcases hcase with hid | hdesc
        · rw [hid]
          exact DescId.base c hcacc hcp
        · exact descId_lift hcacc hcp hdesc
      · intro hdesc
        obtain ⟨c, hcacc, hcp, hcase⟩ := descId_peel hdesc
        refine ⟨c, List.mem_filter.mpr ⟨hcacc, by simp [hcp]⟩, ?_⟩
        rcases hcase with hid | hdesc'
        · exact Or.inl hid
        · exact Or.inr hdesc'
    rw [List.nil_append] at hfold
    rw [hRem] at hfold
    exact hfold

/-- The reference-stripping pass of `deleteTask` keeps the task id. -/
theorem deleteStrip_id (tid : Nat) (po : Option Nat) (t : Task) :
    (deleteStrip tid po t).id = t.id := by
  unfold deleteStrip
  split <;> rfl

/-- The reference-stripping pass of `deleteTask` keeps the parent pointer. -/
theorem deleteStrip_parent (tid : Nat) (po : Option Nat) (t : Task) :
    (deleteStrip tid po t).parentTaskId = t.parentTaskId := by
  unfold deleteStrip
  split <;> rfl

/-- The descendant relation only depends on ids and parent pointers, so it
is invariant under maps preserving both. -/
theorem descId_map_iff {s : List Task} {f : Task → Task}
    (hid : ∀ t, (f t).id = t.id) (hp : ∀ t, (f t).parentTaskId = t.parentTaskId)
    (r x : Nat) : DescId (s.map f) r x ↔ DescId s r x := by
  constructor
  · intro h
    induction h with
    | base c hc hpar =>
      obtain ⟨y, hy, rfl⟩ := List.mem_map.mp hc
      rw [hid y]
      exact DescId.base y hy (by rw [← hp y]; exact hpar)
    | step p c hd hc hpar ih =>
      obtain ⟨y, hy, rfl⟩ := List.mem_map.mp hc
      rw [hid y]
      exact DescId.step p y ih hy (by rw [← hp y]; exact hpar)
  · intro h
    induction h with
    | base c hc hpar =>
      rw [← hid c]
      exact DescId.base (f c) (List.mem_map_of_mem f hc) (by rw [hp c]; exact hpar)
    | step p c hd hc hpar ih =>
      rw [← hid c]
      exact DescId.step p (f c) ih (List.mem_map_of_mem f hc) (by rw [hp c]; exact hpar)

/-- An id-preserving map preserves distinctness of ids. -/
theorem nodupIds_map {s : List Task} {f : Task → Task} (hid : ∀ t, (f t).id = t.id)
    (h : NodupIds s) : NodupIds (s.map f) := by
  show (List.map Task.id (s.map f)).Nodup
  rw [List.map_map]
  have hfun : Task.id ∘ f = Task.id := funext hid
  rw [hfun]
  exact h

/-- An id- and parent-preserving map preserves rank admissibility. -/
theorem rankOk_map {rank : Nat → Nat} {s : List Task} {f : Task → Task}
    (hid : ∀ t, (f t).id = t.id) (hp : ∀ t, (f t).parentTaskId = t.parentTaskId)
    (h : RankOk rank s) : RankOk rank (s.map f) := by
  intro t ht pid hpt
  obtain ⟨y, hy, rfl⟩ := List.mem_map.mp ht
  rw [hid y]
  exact h y hy pid (by rw [← hp y]; exact hpt)

/-- Full membership characterization of `deleteTask` on a forest store: the
survivors are exactly the stripped versions of the old tasks that are
neither the deleted task nor one of its descendants. -/
theorem deleteTask_char {s : List Task} {T : Task} (hT : T ∈ s) (hnd : NodupIds s)
    (hf : Forest s) (X : Task) :
    X ∈ deleteTask T.id s ↔
      ((∃ Y ∈ s, X = deleteStrip T.id T.parentTaskId Y) ∧
        X.id ≠ T.id ∧ ¬DescId s T.id X.id) := by
  obtain ⟨rank, hokB, hbdB⟩ := hf
  have hok := rankOk_of_B hokB
  have hbd := rankBound_of_B hbdB
  have hfind := find_eq_of_mem hnd hT
  unfold deleteTask
  rw [hfind]
  have hid : ∀ t, (deleteStrip T.id T.parentTaskId t).id = t.id :=
    deleteStrip_id T.id T.parentTaskId
  have hpar : ∀ t, (deleteStrip T.id T.parentTaskId t).parentTaskId = t.parentTaskId :=
    deleteStrip_parent T.id T.parentTaskId
  have hnd' : NodupIds (s.map (deleteStrip T.id T.parentTaskId)) := nodupIds_map hid hnd
  have hok' : RankOk rank (s.map (deleteStrip T.id T.parentTaskId)) := rankOk_map hid hpar hok
  have hbd' : RankBound rank (s.map (deleteStrip T.id T.parentTaskId))
      (s.map (deleteStrip T.id T.parentTaskId)).length := by
    intro t ht
    obtain ⟨y, hy, rfl⟩ := List.mem_map.mp ht
    rw [hid y, List.length_map]
    exact hbd y hy
  have hchar := delGo_char (s.map (deleteStrip T.id T.parentTaskId)).length T.id
    (s.map (deleteStrip T.id T.parentTaskId)) hnd' hok' hbd' (Nat.le_add_left _ _) X
  rw [List.mem_filter, hchar, descId_map_iff hid hpar]
  constructor
  · rintro ⟨⟨hmem, hnodesc⟩, hne⟩
    obtain ⟨Y, hY, hXY⟩ := List.mem_map.mp hmem
    exact ⟨⟨Y, hY, hXY.symm⟩, by simpa using hne, hnodesc⟩
  · rintro ⟨⟨Y, hY, hXY⟩, hne, hnodesc⟩
    exact ⟨⟨List.mem_map.mpr ⟨Y, hY, hXY.symm⟩, hnodesc⟩, by simpa using hne⟩

/-- C2 counterexample: on the concrete store `delEx`, deleting `delT`
removes it and its descendant `delD` (id 3), but the surviving outsider
still lists the descendant's id 3 in `linksTo`, and the surviving parent
still lists the deleted task's id 2 in `linksTo` — the claim's "removes any
references to T's id or D's id from every remaining task" is false. -/
theorem deleteTask_counterexample :
    delT ∈ delEx ∧ DescId delEx delT.id delD.id ∧
    (deleteTask delT.id delEx).all (fun X => X.id ≠ delD.id) = true ∧
    (deleteTask delT.id delEx).any (fun X => X.linksTo.contains delD.id) = true ∧
    (deleteTask delT.id delEx).any (fun X => X.linksTo.contains delT.id) = true :=
  ⟨by decide, DescId.base delD (by decide) rfl, by decide, by decide, by decide⟩

/-- C2 amended: on a forest store with distinct ids and consistent
parent/child references, `deleteTask T.id` removes `T` and every descendant
of `T` (in particular `D`), removes `T.id` from every remaining task's
`subtasks`, and removes `T.id` from the `linksTo`/`linkedFrom` of every
remaining task other than `T`'s parent; references to the descendants' ids
(and, in `T`'s parent, to `T.id` in the link arrays) are not removed. -/
theorem deleteTask_cascade (s : List Task) (T D : Task) (hT : T ∈ s) (hD : D ∈ s)
    (hdesc : DescId s T.id D.id) (hnd : NodupIds s) (hf : Forest s) (hcons : HierProp s) :
    (∀ X ∈ deleteTask T.id s, X.id ≠ T.id ∧ X.id ≠ D.id) ∧
    (∀ X ∈ deleteTask T.id s, T.id ∉ X.subtasks) ∧
    (∀ X ∈ deleteTask T.id s, some X.id ≠ T.parentTaskId →
      T.id ∉ X.linksTo ∧ T.id ∉ X.linkedFrom) := by
  refine ⟨?_, ?_, ?_⟩
  · intro X hX
    obtain ⟨⟨Y, hY, hXY⟩, hne, hnodesc⟩ := (deleteTask_char hT hnd hf X).mp hX
    refine ⟨hne, fun hid => hnodesc ?_⟩
    rw [hid]
    exact hdesc
  · intro X hX
    obtain ⟨⟨Y, hY, hXY⟩, hne, hnodesc⟩ := (deleteTask_char hT hnd hf X).mp hX
    subst hXY
    unfold deleteStrip
    split
    · simp
    · rename_i hYnp
      intro hmem
      exact hYnp ((hcons T hT Y hY).mpr hmem).symm
  · intro X hX hnp
    obtain ⟨⟨Y, hY, hXY⟩, hne, hnodesc⟩ := (deleteTask_char hT hnd hf X).mp hX
    subst hXY
    rw [deleteStrip_id] at hnp
    unfold deleteStrip
    split
    · rename_i hcond
      exact absurd hcond hnp
    · constructor <;> simp

/-- Witness for C2 (amended) on a clean two-task store. -/
theorem deleteTask_cascade_witness :
    (∀ X ∈ deleteTask w2T.id w2Ex, X.id ≠ w2T.id ∧ X.id ≠ w2D.id) ∧
    (∀ X ∈ deleteTask w2T.id w2Ex, w2T.id ∉ X.subtasks) ∧
    (∀ X ∈ deleteTask w2T.id w2Ex, some X.id ≠ w2T.parentTaskId →
      w2T.id ∉ X.linksTo ∧ w2T.id ∉ X.linkedFrom) :=
  deleteTask_cascade w2Ex w2T w2D (by decide) (by decide)
    (DescId.base w2D (by decide) rfl) (by decide)
    ⟨fun n => n, by decide, by decide⟩ (by decide)

/-- Maps that keep id, parent pointer and subtasks preserve distinct ids and
hierarchy consistency. -/
theorem inv_map {s : List Task} {f : Task → Task}
    (hid : ∀ t, (f t).id = t.id) (hp : ∀ t, (f t).parentTaskId = t.parentTaskId)
    (hs : ∀ t, (f t).subtasks = t.subtasks) (h : NodupIds s ∧ HierProp s) :
    NodupIds (s.map f) ∧ HierProp (s.map f) := by
  refine ⟨nodupIds_map hid h.1, ?_⟩
  intro a ha b hb
  obtain ⟨x, hx, rfl⟩ := List.mem_map.mp ha
  obtain ⟨y, hy, rfl⟩ := List.mem_map.mp hb
  rw [hid x, hp x, hid y, hs y]
  exact h.2 x hx y hy

/-- Unfolded reading of a failed `mentionsId` check. -/
theorem mentions_false {i : Nat} {s : List Task} (h : mentionsId i s = false) :
    ∀ t ∈ s, t.id ≠ i ∧ t.parentTaskId ≠ some i ∧ i ∉ t.subtasks := by
  intro t ht
  have h2 := List.any_eq_false.mp h t ht
  simp only [Bool.or_eq_true, beq_iff_eq, not_or] at h2
  exact ⟨h2.1.1, h2.1.2, by simpa using h2.2⟩

/-- `addTask` preserves distinct ids and hierarchy consistency when the new
id is globally fresh and the parent reference, when truthy, exists. -/
theorem addTask_preserves_inv {now : Int} {newId : Nat} {inp : TaskInput} {s : List Task}
    (hinv : NodupIds s ∧ HierProp s)
    (hm : mentionsId newId s = false)
    (hpar : idTruthy inp.parentTaskId = true →
      ∃ P ∈ s, some P.id = inp.parentTaskId) :
    NodupIds (addTask now newId inp s).2 ∧ HierProp (addTask now newId inp s).2 := by
  have hfresh := mentions_false hm
  have hnodup : NodupIds (s ++ [newTaskOf now newId inp]) := by
    show (List.map Task.id (s ++ [newTaskOf now newId inp])).Nodup
    rw [List.map_append]
    refine List.nodup_append.mpr ⟨hinv.1, by simp, ?_⟩
    intro a hamem hbmem
    obtain ⟨x, hx, rfl⟩ := List.mem_map.mp hamem
    have hxid : x.id = newId := by simpa [newTaskOf] using hbmem
    exact (hfresh x hx).1 hxid
  by_cases ht : idTruthy inp.parentTaskId = true
  · obtain ⟨P, hP, hPid⟩ := hpar ht
    have hPidne : P.id ≠ newId := (hfresh P hP).1
    have hntp : (newTaskOf now newId inp).parentTaskId = inp.parentTaskId := by
      unfold newTaskOf
      exact if_pos ht
    have hres : (addTask now newId inp s).2 =
        (s ++ [newTaskOf now newId inp]).map (fun t =>
          if some t.id = inp.parentTaskId then
            { t with subtasks := t.subtasks ++ [newId] } else t) := by
      unfold addTask
      rw [if_pos ht]
    rw [hres]
    have hgid : ∀ t : Task, (if some t.id = inp.parentTaskId then
        { t with subtasks := t.subtasks ++ [newId] } else t).id = t.id := by
      intro t
      split <;> rfl
    have hgp : ∀ t : Task, (if some t.id = inp.parentTaskId then
        { t with subtasks := t.subtasks ++ [newId] } else t).parentTaskId = t.parentTaskId := by
      intro t
      split <;> rfl
    have hgsub : ∀ t : Task, (if some t.id = inp.parentTaskId then
        { t with subtasks := t.subtasks ++ [newId] } else t).subtasks =
        if some t.id = inp.parentTaskId then t.subtasks ++ [newId] else t.subtasks := by
      intro t
      split <;> rfl
    refine ⟨nodupIds_map hgid hnodup, ?_⟩
    intro a' ha' b' hb'
    obtain ⟨a, ha, rfl⟩ := List.mem_map.mp ha'
    obtain ⟨b, hb, rfl⟩ := List.mem_map.mp hb'
    rw [hgid a, hgp a, hgid b, hgsub b]
    by_cases hbp : some b.id = inp.parentTaskId
    · rw [if_pos hbp, List.mem_append, List.mem_singleton]
      rcases List.mem_append.mp ha with has | hant
      · have hane : a.id ≠ newId := (hfresh a has).1
        rcases List.mem_append.mp hb with hbs | hbnt
        · constructor
          · intro hpa
            exact Or.inl ((hinv.2 a has b hbs).mp hpa)
          · rintro (hmem | heq)
            · exact (hinv.2 a has b hbs).mpr hmem
            · exact absurd heq hane
        · exfalso
          rw [List.mem_singleton] at hbnt
          subst hbnt
          rw [← hPid] at hbp
          exact hPidne (Option.some.inj hbp).symm
      · rw [List.mem_singleton] at hant
        subst hant
        rw [hntp]
        exact ⟨fun _ => Or.inr rfl, fun _ => hbp.symm⟩
    · rw [if_neg hbp]
      rcases List.mem_append.mp ha with has | hant
      · rcases List.mem_append.mp hb with hbs | hbnt
        · exact hinv.2 a has b hbs
        · rw [List.mem_singleton] at hbnt
          subst hbnt
          exact ⟨fun hpa => absurd hpa (hfresh a has).2.1,
                 fun hmem => absurd hmem (List.not_mem_nil _)⟩
      · rw [List.mem_singleton] at hant
        subst hant
        rw [hntp]
        rcases List.mem_append.mp hb with hbs | hbnt
        · exact ⟨fun h => absurd h.symm hbp, fun hmem => absurd hmem (hfresh b hbs).2.2⟩
        · rw [List.mem_singleton] at hbnt
          subst hbnt
          exact ⟨fun h => absurd h.symm hbp, fun hmem => absurd hmem (List.not_mem_nil _)⟩
  · have hntp0 : (newTaskOf now newId inp).parentTaskId = none := by
      unfold newTaskOf
      exact if_neg ht
    have hres : (addTask now newId inp s).2 = s ++ [newTaskOf now newId inp] := by
      unfold addTask
      rw [if_neg ht]
    rw [hres]
    refine ⟨hnodup, ?_⟩
    intro a ha b hb
    rcases List.mem_append.mp ha with has | hant
    · rcases List.mem_append.mp hb with hbs | hbnt
      · exact hinv.2 a has b hbs
      · rw [List.mem_singleton] at hbnt
        subst hbnt
        exact ⟨fun hpa => absurd hpa (hfresh a has).2.1,
               fun hmem => absurd hmem (List.not_mem_nil _)⟩
    · rw [List.mem_singleton] at hant
      subst hant
      rw [hntp0]
      refine ⟨fun h => Option.noConfusion h, fun hmem => ?_⟩
      rcases List.mem_append.mp hb with hbs | hbnt
      · exact absurd hmem (hfresh b hbs).2.2
      · rw [List.mem_singleton] at hbnt
        subst hbnt
        exact absurd hmem (List.not_mem_nil _)


/-- Sublists inherit distinct ids and hierarchy consistency. -/
theorem inv_sublist {s s' : List Task} (hsub : s'.Sublist s)
    (h : NodupIds s ∧ HierProp s) : NodupIds s' ∧ HierProp s' :=
  ⟨List.Nodup.sublist (hsub.map Task.id) h.1,
   fun a ha b hb => h.2 a (hsub.subset ha) b (hsub.subset hb)⟩

/-- `updateTask` preserves distinct ids and hierarchy consistency. -/
theorem update_preserves_inv {tid : Nat} {p : Patch} {s : List Task}
    (hinv : NodupIds s ∧ HierProp s) :
    NodupIds (updateTask tid p s) ∧ HierProp (updateTask tid p s) := by
  unfold updateTask
  refine inv_map ?_ ?_ ?_ hinv <;> intro t <;> dsimp only <;> split <;> rfl

/-- `deleteTask` preserves distinct ids and hierarchy consistency. -/
theorem deleteTask_preserves_inv {tid : Nat} {s : List Task}
    (hinv : NodupIds s ∧ HierProp s) :
    NodupIds (deleteTask tid s) ∧ HierProp (deleteTask tid s) := by
  unfold deleteTask
  cases hfind : s.find? (fun t => t.id == tid) with
  | none => exact hinv
  | some td =>
    have hid := deleteStrip_id tid td.parentTaskId
    have hpar := deleteStrip_parent tid td.parentTaskId
    have hmap_nd : NodupIds (s.map (deleteStrip tid td.parentTaskId)) :=
      nodupIds_map hid hinv.1
    have hsubl : ((deleteSubtasksGo (s.map (deleteStrip tid td.parentTaskId)).length tid
        (s.map (deleteStrip tid td.parentTaskId))).filter
          (fun task => task.id ≠ tid)).Sublist (s.map (deleteStrip tid td.parentTaskId)) :=
      (List.filter_sublist _).trans (delGo_sublist _ _ _)
    refine ⟨List.Nodup.sublist (hsubl.map Task.id) hmap_nd, ?_⟩
    intro a ha b hb
    have haid : a.id ≠ tid := by simpa using (List.mem_filter.mp ha).2
    have haM : a ∈ s.map (deleteStrip tid td.parentTaskId) := hsubl.subset ha
    have hbM : b ∈ s.map (deleteStrip tid td.parentTaskId) := hsubl.subset hb
    obtain ⟨x, hx, rfl⟩ := List.mem_map.mp haM
    obtain ⟨y, hy, rfl⟩ := List.mem_map.mp hbM
    rw [hid x] at haid
    rw [hid x, hpar x, hid y]
    by_cases hYp : some y.id = td.parentTaskId
    · have hsubeq : (deleteStrip tid td.parentTaskId y).subtasks =
          y.subtasks.filter (fun i => i ≠ tid) := by
        unfold deleteStrip
        rw [if_pos hYp]
      rw [hsubeq, List.mem_filter]
      constructor
      · intro hpa
        exact ⟨(hinv.2 x hx y hy).mp hpa, by simpa using haid⟩
      · rintro ⟨hmem, _⟩
        exact (hinv.2 x hx y hy).mpr hmem
    · have hsubeq : (deleteStrip tid td.parentTaskId y).subtasks = y.subtasks := by
        unfold deleteStrip
        rw [if_neg hYp]
      rw [hsubeq]
      exact hinv.2 x hx y hy

/-- `toggleTaskCompletion` preserves distinct ids and hierarchy consistency. -/
theorem toggle_preserves_inv {now : Int} {tid : Nat} {s : List Task}
    (hinv : NodupIds s ∧ HierProp s) :
    NodupIds (toggleTaskCompletion now tid s) ∧ HierProp (toggleTaskCompletion now tid s) := by
  unfold toggleTaskCompletion
  cases hfind : s.find? (fun t => t.id == tid) with
  | none => exact hinv
  | some task =>
    refine inv_map ?_ ?_ ?_ hinv <;> intro t <;> dsimp only <;> split
    · rfl
    · split <;> rfl
    · rfl
    · split <;> rfl
    · rfl
    · split <;> rfl

/-- `linkTaskList` preserves distinct ids and hierarchy consistency. -/
theorem link_preserves_inv {fId tId : Nat} {s : List Task}
    (hinv : NodupIds s ∧ HierProp s) :
    NodupIds (linkTaskList fId tId s) ∧ HierProp (linkTaskList fId tId s) := by
  unfold linkTaskList
  split
  · exact hinv
  · refine inv_map ?_ ?_ ?_ hinv <;> intro t <;> unfold linkStep <;> split
    · rfl
    · split <;> rfl
    · rfl
    · split <;> rfl
    · rfl
    · split <;> rfl

/-- `unlinkTask` preserves distinct ids and hierarchy consistency. -/
theorem unlink_preserves_inv {fId tId : Nat} {s : List Task}
    (hinv : NodupIds s ∧ HierProp s) :
    NodupIds (unlinkTask fId tId s) ∧ HierProp (unlinkTask fId tId s) := by
  unfold unlinkTask
  refine inv_map ?_ ?_ ?_ hinv <;> intro t <;> dsimp only <;> split
  · rfl
  · split <;> rfl
  · rfl
  · split <;> rfl
  · rfl
  · split <;> rfl

/-- `catastrophicWipeOut` preserves distinct ids and hierarchy consistency. -/
theorem wipe_preserves_inv {s : List Task} (hinv : NodupIds s ∧ HierProp s) :
    NodupIds (catastrophicWipeOut s) ∧ HierProp (catastrophicWipeOut s) :=
  inv_sublist (List.filter_sublist s) hinv

/-- Every valid operation preserves distinct ids and hierarchy consistency. -/
theorem applyOp_preserves_inv (op : Op) (s : List Task)
    (hinv : NodupIds s ∧ HierProp s) (hpre : opPreB op s = true) :
    NodupIds (applyOp op s) ∧ HierProp (applyOp op s) := by
  cases op with
  | add now newId inp =>
    simp only [opPreB, Bool.and_eq_true, Bool.not_eq_true'] at hpre
    refine addTask_preserves_inv hinv hpre.1 ?_
    intro ht
    cases hpt : inp.parentTaskId with
    | none =>
      rw [hpt] at ht
      exact absurd ht (by simp [idTruthy])
    | some pid =>
      have h2 := hpre.2
      rw [hpt] at h2 ht
      have hpid0 : pid ≠ 0 := by simpa [idTruthy] using ht
      simp only [Bool.or_eq_true, beq_iff_eq] at h2
      rcases h2 with h2 | h2
      · exact absurd h2 hpid0
      · obtain ⟨P, hP, hPid⟩ := List.any_eq_true.mp h2
        refine ⟨P, hP, ?_⟩
        simp only [hpt, Option.some.injEq]
        simpa using hPid
  | update tid p => exact update_preserves_inv hinv
  | delete tid => exact deleteTask_preserves_inv hinv
  | toggle now tid => exact toggle_preserves_inv hinv
  | link fId tId => exact link_preserves_inv hinv
  | unlink fId tId => exact unlink_preserves_inv hinv
  | wipeOut => exact wipe_preserves_inv hinv

/-- Running a valid operation sequence preserves the invariants. -/
theorem run_inv : ∀ (ops : List Op) (s : List Task),
    NodupIds s ∧ HierProp s → validOpsB s ops = true →
    NodupIds (run ops s) ∧ HierProp (run ops s) := by
  intro ops
  induction ops with
  | nil =>
    intro s h _
    exact h
  | cons op rest ih =>
    intro s h hv
    simp only [validOpsB, Bool.and_eq_true] at hv
    exact ih (applyOp op s) (applyOp_preserves_inv op s h hv.1) hv.2

/-- C9 counterexample: the concrete sequence `cex9ops` — add a task whose
parent id 5 does not yet exist, then add a fresh task that receives id 5 —
leaves a store where the first task's `parentTaskId` is the second task's
id while the second task's `subtasks` does not contain the first task's id:
the biconditional fails after a sequence of store operations. -/
theorem hierarchy_counterexample :
    run cex9ops [] = [cex9a, cex9b] ∧ cex9a ∈ run cex9ops [] ∧ cex9b ∈ run cex9ops [] ∧
    cex9a.parentTaskId = some cex9b.id ∧ cex9a.id ∉ cex9b.subtasks :=
  ⟨by decide, by decide, by decide, by decide, by decide⟩

/-- C9 amended: after any sequence of store operations from the empty store
in which every `addTask` uses a globally fresh id (one that occurs nowhere
in the store as a task id, parent reference, or subtasks entry) and a
parent reference that is falsy or the id of an existing task, hierarchy
consistency holds: `A.parentTaskId = B.id` iff `A.id ∈ B.subtasks` for all
stored tasks `A`, `B`. -/
theorem hierarchy_consistency_of_valid (ops : List Op) (h : validOpsB [] ops = true) :
    HierProp (run ops []) :=
  (run_inv ops [] ⟨List.nodup_nil, fun a ha => absurd ha (List.not_mem_nil a)⟩ h).2

/-- Witness for C9 (amended): a valid sequence exercising every mutator. -/
theorem hierarchy_consistency_witness : HierProp (run w9ops []) :=
  hierarchy_consistency_of_valid w9ops (by decide)

/-- Witness for C6: a three-level concrete store, with the cascade applied
to its incomplete root. -/
theorem toggleTaskCompletion_cascade_witness :
    togT.completed = false ∧
    List.Forall₂ (fun t t' =>
      (t.id = togT.id → t' = { t with completed := true, completedAt := some 5 }) ∧
      (DescId togEx togT.id t.id → t' = { t with completed := true, completedAt := some 5 }) ∧
      (t.id ≠ togT.id → ¬DescId togEx togT.id t.id → t' = t))
      togEx (toggleTaskCompletion 5 togT.id togEx) :=
  ⟨rfl,
   (toggleTaskCompletion_cascade 5 togEx togT (by decide) (by decide)
      ⟨fun n => n, by decide, by decide⟩).1 rfl⟩

/-- Witness for C7: the example list of the claim, whose sort is the claimed
reordering. -/
theorem sortTasksByPriority_spec_witness :
    (∀ t ∈ sortEx, ValidIL t) ∧ (sortTasksByPriority sortEx).Perm sortEx ∧
    sortTasksByPriority sortEx = [sortT3, sortT2, sortT1] :=
  ⟨by decide, (sortTasksByPriority_spec sortEx (by decide)).1, by decide⟩

/-- Witness for C10 on a concrete store and full patch. -/
theorem updateTask_frame_witness :
    List.Forall₂ (fun t t' =>
      t'.id = t.id ∧ t'.parentTaskId = t.parentTaskId ∧ t'.subtasks = t.subtasks ∧
      t'.linksTo = t.linksTo ∧ t'.linkedFrom = t.linkedFrom ∧
      t'.completed = t.completed ∧ t'.completedAt = t.completedAt ∧
      (t.id ≠ 1 → t' = t)) updEx (updateTask 1 updPatch updEx) :=
  updateTask_frame updEx 1 updPatch

end Planning
